import Mathlib

/-!
# Verification of the HAB container extraction engine (`hab_tool`)

Shallow embedding of `src/hab_tool/src/main.rs`.  The backing byte source
(`BufReader<File>` in the Rust code) is modelled as an immutable list of
bytes together with a cursor position; bytes are `Nat` (values `< 256` in
any real container, nothing below depends on the bound).  Every fallible
operation returns `Option` (for `std::io` read failures, which for an
in-memory source can only be end-of-source) or `Except HabError`.

The Rust tool reports all failures through `anyhow`; the `HabError`
constructors below tag each failure with the parse phase that raised it
(magic check, fixed header, metadata table, name decoding, index lookup),
which is exactly the information the error position carries in the source.
-/

/-- A seekable byte source: the data of the backing file plus the current
cursor position (`Seek`/`stream_position` state of the `BufReader`). -/
structure ByteSource where
  data : List Nat
  pos : Nat
deriving Repr, DecidableEq

/-- `Seek::seek(SeekFrom::Start k)`: repositions the cursor (seeking past
end-of-source is permitted, as for files). -/
def ByteSource.seek (s : ByteSource) (k : Nat) : ByteSource :=
  { s with pos := k }

/-- `Read::read_exact` for an `n`-byte buffer: succeeds exactly when `n`
bytes remain, yielding them and advancing the cursor by `n`. -/
def ByteSource.readExact (s : ByteSource) (n : Nat) : Option (List Nat × ByteSource) :=
  if n ≤ (s.data.drop s.pos).length then
    some ((s.data.drop s.pos).take n, { s with pos := s.pos + n })
  else
    none

/-- Little-endian value of a byte run (`u16::from_le_bytes` /
`u32::from_le_bytes` composed over the list). -/
def leNat (bs : List Nat) : Nat :=
  bs.foldr (fun b acc => b + 256 * acc) 0

/-- `HabReader::read_u16`. -/
def ByteSource.readU16 (s : ByteSource) : Option (Nat × ByteSource) :=
  match s.readExact 2 with
  | none => none
  | some (bs, s) => some (leNat bs, s)

/-- `HabReader::read_u32`. -/
def ByteSource.readU32 (s : ByteSource) : Option (Nat × ByteSource) :=
  match s.readExact 4 with
  | none => none
  | some (bs, s) => some (leNat bs, s)

/-- The bytes `BufRead::read_until 0` appends: everything up to and
including the first `0`, or the whole remainder when no `0` occurs. -/
def takeUntilZero : List Nat → List Nat
  | [] => []
  | b :: rest => if b = 0 then [b] else b :: takeUntilZero rest

/-- `BufRead::read_until(0, &mut buf)`: infallible on an in-memory source;
advances the cursor past the bytes read. -/
def ByteSource.readUntilZero (s : ByteSource) : List Nat × ByteSource :=
  (takeUntilZero (s.data.drop s.pos),
   { s with pos := s.pos + (takeUntilZero (s.data.drop s.pos)).length })

/-- `Read::read` for an in-memory source: yields up to `n` bytes, fewer
only at end-of-source, never an error. -/
def ByteSource.read (s : ByteSource) (n : Nat) : List Nat × ByteSource :=
  ((s.data.drop s.pos).take n,
   { s with pos := s.pos + ((s.data.drop s.pos).take n).length })

/-- UTF-8 well-formedness of a byte sequence, as checked by Rust's
`String::from_utf8` (RFC 3629: no overlongs, no surrogates, max U+10FFFF). -/
def utf8Valid : List Nat → Bool
  | [] => true
  | b :: rest =>
    if b < 0x80 then utf8Valid rest
    else if b < 0xC2 then false
    else if b < 0xE0 then
      match rest with
      | b1 :: rest1 =>
        if 0x80 ≤ b1 ∧ b1 < 0xC0 then utf8Valid rest1 else false
      | [] => false
    else if b = 0xE0 then
      match rest with
      | b1 :: b2 :: rest2 =>
        if (0xA0 ≤ b1 ∧ b1 < 0xC0) ∧ (0x80 ≤ b2 ∧ b2 < 0xC0) then utf8Valid rest2 else false
      | _ => false
    else if b < 0xED then
      match rest with
      | b1 :: b2 :: rest2 =>
        if (0x80 ≤ b1 ∧ b1 < 0xC0) ∧ (0x80 ≤ b2 ∧ b2 < 0xC0) then utf8Valid rest2 else false
      | _ => false
    else if b = 0xED then
      match rest with
      | b1 :: b2 :: rest2 =>
        if (0x80 ≤ b1 ∧ b1 < 0xA0) ∧ (0x80 ≤ b2 ∧ b2 < 0xC0) then utf8Valid rest2 else false
      | _ => false
    else if b < 0xF0 then
      match rest with
      | b1 :: b2 :: rest2 =>
        if (0x80 ≤ b1 ∧ b1 < 0xC0) ∧ (0x80 ≤ b2 ∧ b2 < 0xC0) then utf8Valid rest2 else false
      | _ => false
    else if b = 0xF0 then
      match rest with
      | b1 :: b2 :: b3 :: rest3 =>
        if (0x90 ≤ b1 ∧ b1 < 0xC0) ∧ (0x80 ≤ b2 ∧ b2 < 0xC0) ∧ (0x80 ≤ b3 ∧ b3 < 0xC0) then
          utf8Valid rest3
        else false
      | _ => false
    else if b < 0xF4 then
      match rest with
      | b1 :: b2 :: b3 :: rest3 =>
        if (0x80 ≤ b1 ∧ b1 < 0xC0) ∧ (0x80 ≤ b2 ∧ b2 < 0xC0) ∧ (0x80 ≤ b3 ∧ b3 < 0xC0) then
          utf8Valid rest3
        else false
      | _ => false
    else if b = 0xF4 then
      match rest with
      | b1 :: b2 :: b3 :: rest3 =>
        if (0x80 ≤ b1 ∧ b1 < 0x90) ∧ (0x80 ≤ b2 ∧ b2 < 0xC0) ∧ (0x80 ≤ b3 ∧ b3 < 0xC0) then
          utf8Valid rest3
        else false
      | _ => false
    else false

/-- One fixed-size metadata record (struct `FileMeta`); the fourth `u32`
of each record is read and discarded, as in the source. -/
structure FileMeta where
  name_offset : Nat
  data_offset : Nat
  data_size : Nat
deriving Repr, DecidableEq

/-- `FileMeta::from_reader`: four consecutive `read_u32`, keeping the
first three fields. -/
def FileMeta.from_reader (s : ByteSource) : Option (FileMeta × ByteSource) :=
  match s.readU32 with
  | none => none
  | some (name_offset, s) =>
    match s.readU32 with
    | none => none
    | some (data_offset, s) =>
      match s.readU32 with
      | none => none
      | some (data_size, s) =>
        match s.readU32 with
        | none => none
        | some (_, s) => some (⟨name_offset, data_offset, data_size⟩, s)

/-- The `for _ in 0..num_entries` loop of `Hab::new` collecting the
metadata records in table order. -/
def readMetas : ByteSource → Nat → Option (List FileMeta × ByteSource)
  | s, 0 => some ([], s)
  | s, n + 1 =>
    match FileMeta.from_reader s with
    | none => none
    | some (m, s) =>
      match readMetas s n with
      | none => none
      | some (ms, s) => some (m :: ms, s)

/-- Struct `FileEntry`: a decoded name (the bytes of the Rust `String`)
paired with its metadata. -/
structure FileEntry where
  name : List Nat
  meta : FileMeta
deriving Repr, DecidableEq

/-- Failure modes of the tool, tagged by the parse phase that raises them
(the Rust code reports them as `anyhow`/`io` errors arising at exactly
these points). -/
inductive HabError where
  | truncatedMagic
  | unrecognizedFormat
  | truncatedHeader
  | truncatedTable
  | invalidEncoding
  | indexOutOfRange
deriving Repr, DecidableEq

instance {e a : Type} [DecidableEq e] [DecidableEq a] : DecidableEq (Except e a)
  | .error x, .error y =>
    if h : x = y then .isTrue (by rw [h]) else .isFalse (fun hc => h (Except.error.inj hc))
  | .error _, .ok _ => .isFalse (fun hc => Except.noConfusion hc)
  | .ok _, .error _ => .isFalse (fun hc => Except.noConfusion hc)
  | .ok x, .ok y =>
    if h : x = y then .isTrue (by rw [h]) else .isFalse (fun hc => h (Except.ok.inj hc))

/-- The magic signature bytes of the format (`b"HAB0"`). -/
def MAGIC : List Nat := [72, 65, 66, 48]

/-- The name-decoding loop of `Hab::new`: for each metadata record, seek to
`filenames_start + name_offset`, `read_until 0`, `pop` the final byte, and
require the remaining bytes to be valid UTF-8. -/
def readNames (filenames_start : Nat) : ByteSource → List FileMeta →
    Except HabError (List FileEntry × ByteSource)
  | s, [] => .ok ([], s)
  | s, meta :: rest =>
    match (s.seek (filenames_start + meta.name_offset)).readUntilZero with
    | (raw, s) =>
      if utf8Valid raw.dropLast then
        match readNames filenames_start s rest with
        | .error e => .error e
        | .ok (entries, s) => .ok (⟨raw.dropLast, meta⟩ :: entries, s)
      else
        .error .invalidEncoding

/-- The parsed directory (struct `Hab`, minus the owned reader, which the
embedding threads explicitly). -/
structure Hab where
  entries : List FileEntry
  total_size : Nat
  data_start : Nat
deriving Repr, DecidableEq

/-- The header part of `Hab::new`: `read_magic` (via `HabReader`), 16
unknown bytes, the `u16` entry count, two reserved fields, and the
advisory `u32` total size.  Returns `(num_entries, total_size, cursor)`. -/
def parseHeader (s : ByteSource) : Except HabError (Nat × Nat × ByteSource) :=
  match s.readExact 4 with
  | none => .error .truncatedMagic
  | some (magic, s) =>
    if magic = MAGIC then
      match s.readExact 16 with
      | none => .error .truncatedHeader
      | some (_, s) =>
        match s.readU16 with
        | none => .error .truncatedHeader
        | some (num_entries, s) =>
          match s.readU16 with
          | none => .error .truncatedHeader
          | some (_, s) =>
            match s.readU32 with
            | none => .error .truncatedHeader
            | some (_, s) =>
              match s.readU32 with
              | none => .error .truncatedHeader
              | some (total_size, s) => .ok (num_entries, total_size, s)
    else
      .error .unrecognizedFormat

/-- `Hab::new`: header, metadata table, name table (the cursor position
after the table is `filenames_start`), and the position after the names
recorded as `data_start`. -/
def Hab.new (s : ByteSource) : Except HabError (Hab × ByteSource) :=
  match parseHeader s with
  | .error e => .error e
  | .ok (num_entries, total_size, s) =>
    match readMetas s num_entries with
    | none => .error .truncatedTable
    | some (file_metas, s) =>
      match readNames s.pos s file_metas with
      | .error e => .error e
      | .ok (entries, s) =>
        .ok ({ entries := entries, total_size := total_size, data_start := s.pos }, s)

/-- `Hab::num_entries`. -/
def Hab.num_entries (hab : Hab) : Nat :=
  hab.entries.length

/-- Modelled from the spec: `entry_name(index)` is not a named operation of
the repository (names are exposed through the `entries` vector and
`HabFile::file_name`); this accessor reads the same `entries` vector the
source stores, returning `none` exactly when the index is out of range. -/
def Hab.entry_name (hab : Hab) (index : Nat) : Option (List Nat) :=
  (hab.entries.get? index).map (·.name)

/-- Struct `HabFile`: the `io::Take`-wrapped reader (source cursor plus the
remaining-byte limit) and the entry it extracts. -/
structure HabFile where
  src : ByteSource
  limit : Nat
  entry : FileEntry
deriving Repr, DecidableEq

/-- `HabFile::file_name`. -/
def HabFile.file_name (f : HabFile) : List Nat :=
  f.entry.name

/-- `HabFile::new`: seek the shared reader to `data_start + data_offset`
and bind `data_size` as the `Take` limit. -/
def HabFile.new (s : ByteSource) (entry : FileEntry) (data_start : Nat) : HabFile :=
  { src := s.seek (data_start + entry.meta.data_offset)
    limit := entry.meta.data_size
    entry := entry }

/-- `Hab::get_file_by_index`: range-check the index, then `HabFile::new`. -/
def Hab.get_file_by_index (hab : Hab) (s : ByteSource) (index : Nat) :
    Except HabError HabFile :=
  match hab.entries.get? index with
  | none => .error .indexOutOfRange
  | some entry => .ok (HabFile.new s entry hab.data_start)

/-- `<Take as Read>::read`: a request for `n` bytes reads at most
`min n limit` from the inner source and decrements the limit by the number
of bytes obtained; at limit `0` it returns no bytes and leaves the state
untouched. -/
def HabFile.read (f : HabFile) (n : Nat) : List Nat × HabFile :=
  if f.limit = 0 then ([], f)
  else
    match f.src.read (min n f.limit) with
    | (bytes, s) => (bytes, { f with src := s, limit := f.limit - bytes.length })

/-- The read loop of `io::copy` with explicit fuel: repeat `read chunk`
until a read yields no bytes, concatenating the results. -/
def readToEndAux (chunk : Nat) : Nat → HabFile → List Nat × HabFile
  | 0, f => ([], f)
  | fuel + 1, f =>
    match f.read chunk with
    | ([], f) => ([], f)
    | (b :: bs, f) =>
      match readToEndAux chunk fuel f with
      | (rest, g) => (b :: bs ++ rest, g)

/-- Reading an entry to completion (`io::copy` into the output file).
Every read that yields bytes strictly decreases `limit`, so fuel
`limit + 1` always reaches the terminating empty read; the exhaustion
lemmas below prove the loop indeed ends at end-of-stream. -/
def HabFile.readToEnd (f : HabFile) (chunk : Nat) : List Nat × HabFile :=
  readToEndAux chunk (f.limit + 1) f

/-- Running a sequence of read requests against a `HabFile`, keeping the
final reader state. -/
def runReads (f : HabFile) : List Nat → HabFile
  | [] => f
  | n :: ns => runReads (f.read n).2 ns

/-- Reader states reachable from `f` by some sequence of read calls. -/
def Reachable (f g : HabFile) : Prop :=
  ∃ ns, g = runReads f ns

/-! ## Characterizations of the primitive reads -/

/-- Decoded fields of one metadata record located at absolute offset `p`. -/
def metaAt (d : List Nat) (p : Nat) : FileMeta :=
  ⟨leNat ((d.drop p).take 4), leNat ((d.drop (p + 4)).take 4), leNat ((d.drop (p + 8)).take 4)⟩

/-- The `n` metadata records of a table starting at absolute offset `p`. -/
def metasOf (d : List Nat) : Nat → Nat → List FileMeta
  | _, 0 => []
  | p, n + 1 => metaAt d p :: metasOf d (p + 16) n

/-- The name the code decodes from absolute offset `off`: the bytes up to
and including the first `0` (or to end-of-source) with the last byte
removed. -/
def codeName (d : List Nat) (off : Nat) : List Nat :=
  (takeUntilZero (d.drop off)).dropLast

/-- The directory entries determined by a name-table base and a record list. -/
def entriesOfMetas (d : List Nat) (fs : Nat) (metas : List FileMeta) : List FileEntry :=
  metas.map fun m => ⟨codeName d (fs + m.name_offset), m⟩

/-- Cursor position after the name-decoding loop: unchanged for an empty
table, otherwise the end of the last name read. -/
def namesEndPos (d : List Nat) (fs : Nat) : Nat → List FileMeta → Nat
  | p, [] => p
  | _, m :: rest =>
      namesEndPos d fs (fs + m.name_offset + (takeUntilZero (d.drop (fs + m.name_offset))).length) rest

/-- Entry count declared in the header: the `u16` at offset 20, after the
4 magic bytes and the 16-byte reserved region. -/
def headerCount (d : List Nat) : Nat := leNat ((d.drop 20).take 2)

/-- Advisory total size declared in the header: the `u32` at offset 28. -/
def headerTotal (d : List Nat) : Nat := leNat ((d.drop 28).take 4)

/-- Absolute offset of the name table: right after the metadata table. -/
def tableEnd (d : List Nat) : Nat := 32 + 16 * headerCount d

/-- All names a successful parse would decode are valid UTF-8. -/
def NamesOK (d : List Nat) : Prop :=
  ∀ m ∈ metasOf d 32 (headerCount d), utf8Valid (codeName d (tableEnd d + m.name_offset)) = true

instance (d : List Nat) : Decidable (NamesOK d) := by
  unfold NamesOK; infer_instance

/-- The directory a successful parse of `d` produces. -/
def habOf (d : List Nat) : Hab :=
  { entries := entriesOfMetas d (tableEnd d) (metasOf d 32 (headerCount d))
    total_size := headerTotal d
    data_start := namesEndPos d (tableEnd d) (tableEnd d) (metasOf d 32 (headerCount d)) }

/-- The reader's cursor never precedes the absolute payload offset `a`, and
cursor plus remaining limit never exceed the window end `a + sz`. -/
def ReaderInv (a sz : Nat) (f : HabFile) : Prop :=
  a ≤ f.src.pos ∧ f.src.pos + f.limit ≤ a + sz

/-- From the spec's words, for comparison with the code: the name at
absolute offset `off` is the bytes up to but excluding the first `0x00`
terminator, or up to end-of-source if no terminator occurs. -/
def specNameAt (d : List Nat) (off : Nat) : List Nat :=
  (d.drop off).takeWhile (fun b => b ≠ 0)

/-- Parse, open entry `i`, and read it to completion with chunk size `c`;
`none` when parsing or the index lookup fails. -/
def extractBytes (d : List Nat) (i c : Nat) : Option (List Nat) :=
  match Hab.new ⟨d, 0⟩ with
  | .error _ => none
  | .ok (hab, s) =>
    match hab.get_file_by_index s i with
    | .error _ => none
    | .ok f => some (f.readToEnd c).1

/-- The read the extraction loop would attempt after completion: its
result length (0 = clean end-of-stream). -/
def extractFinalRead (d : List Nat) (i c : Nat) : Option (List Nat) :=
  match Hab.new ⟨d, 0⟩ with
  | .error _ => none
  | .ok (hab, s) =>
    match hab.get_file_by_index s i with
    | .error _ => none
    | .ok f => some (((f.readToEnd c).2).read c).1

/-- The `data_size` field entry `i` declares. -/
def declaredSize (d : List Nat) (i : Nat) : Option Nat :=
  match Hab.new ⟨d, 0⟩ with
  | .error _ => none
  | .ok (hab, _) => (hab.entries.get? i).map (·.meta.data_size)

/-- The decoded names of a parsed container, in table order. -/
def parsedNames (d : List Nat) : Option (List (List Nat)) :=
  match Hab.new ⟨d, 0⟩ with
  | .error _ => none
  | .ok (hab, _) => some (hab.entries.map (·.name))

/-- The example container of the spec: magic, 16 reserved bytes,
`entry_count = 1`, reserved fields, advisory total size 0, one record
`(name_offset 0, data_offset 0, data_size 3, reserved 0)`, the name
`a.txt` with terminator, and the payload bytes 1, 2, 3. -/
def exampleData : List Nat :=
  MAGIC ++ List.replicate 16 0 ++ [1, 0] ++ [0, 0] ++ [0, 0, 0, 0] ++ [0, 0, 0, 0] ++
  [0, 0, 0, 0, 0, 0, 0, 0, 3, 0, 0, 0, 0, 0, 0, 0] ++
  [97, 46, 116, 120, 116, 0] ++ [1, 2, 3]

/-- The example container with the advisory total-size field changed to
`0x09090909` and everything else identical. -/
def exampleData2 : List Nat :=
  MAGIC ++ List.replicate 16 0 ++ [1, 0] ++ [0, 0] ++ [0, 0, 0, 0] ++ [9, 9, 9, 9] ++
  [0, 0, 0, 0, 0, 0, 0, 0, 3, 0, 0, 0, 0, 0, 0, 0] ++
  [97, 46, 116, 120, 116, 0] ++ [1, 2, 3]

/-- The entry the example container declares. -/
def exampleEntry : FileEntry := ⟨[97, 46, 116, 120, 116], ⟨0, 0, 3⟩⟩

/-- The directory parsed from the example container. -/
def exampleHab : Hab := ⟨[exampleEntry], 0, 54⟩

/-- The reader `open_entry 0` yields on the example container. -/
def exampleFile : HabFile := ⟨⟨exampleData, 54⟩, 3, exampleEntry⟩

/-- The example container with its payload truncated to two bytes while
the record still declares `data_size = 3`. -/
def truncData : List Nat :=
  MAGIC ++ List.replicate 16 0 ++ [1, 0] ++ [0, 0] ++ [0, 0, 0, 0] ++ [0, 0, 0, 0] ++
  [0, 0, 0, 0, 0, 0, 0, 0, 3, 0, 0, 0, 0, 0, 0, 0] ++
  [97, 0] ++ [1, 2]

/-- A container whose single name runs to end-of-source with no `0x00`
terminator: name-table bytes are `97 98` (`ab`) and nothing follows. -/
def unterminatedNameData : List Nat :=
  MAGIC ++ List.replicate 16 0 ++ [1, 0] ++ [0, 0] ++ [0, 0, 0, 0] ++ [0, 0, 0, 0] ++
  List.replicate 16 0 ++ [97, 98]

/-- A header claiming five entries over a table with room for only three
records (48 bytes of table data). -/
def truncTableData : List Nat :=
  MAGIC ++ List.replicate 16 0 ++ [5, 0] ++ [0, 0] ++ [0, 0, 0, 0] ++ [0, 0, 0, 0] ++
  List.replicate 48 7

/-- A well-formed 32-byte header declaring zero entries. -/
def zeroEntryData : List Nat :=
  MAGIC ++ List.replicate 16 0 ++ [0, 0] ++ [0, 0] ++ [0, 0, 0, 0] ++ [7, 0, 0, 0]


theorem readExact_ok (d : List Nat) (p n : Nat) (h : p + n ≤ d.length) :
    ByteSource.readExact ⟨d, p⟩ n = some ((d.drop p).take n, ⟨d, p + n⟩) := by
  unfold ByteSource.readExact
  rw [if_pos]
  simp only [List.length_drop]
  omega

theorem readExact_none (d : List Nat) (p n : Nat) (h : d.length < p + n) (h0 : 0 < n) :
    ByteSource.readExact ⟨d, p⟩ n = none := by
  unfold ByteSource.readExact
  rw [if_neg]
  simp only [List.length_drop]
  omega

theorem readU16_ok (d : List Nat) (p : Nat) (h : p + 2 ≤ d.length) :
    ByteSource.readU16 ⟨d, p⟩ = some (leNat ((d.drop p).take 2), ⟨d, p + 2⟩) := by
  unfold ByteSource.readU16
  rw [readExact_ok d p 2 h]

theorem readU16_none (d : List Nat) (p : Nat) (h : d.length < p + 2) :
    ByteSource.readU16 ⟨d, p⟩ = none := by
  unfold ByteSource.readU16
  rw [readExact_none d p 2 h (by omega)]

theorem readU32_ok (d : List Nat) (p : Nat) (h : p + 4 ≤ d.length) :
    ByteSource.readU32 ⟨d, p⟩ = some (leNat ((d.drop p).take 4), ⟨d, p + 4⟩) := by
  unfold ByteSource.readU32
  rw [readExact_ok d p 4 h]

theorem readU32_none (d : List Nat) (p : Nat) (h : d.length < p + 4) :
    ByteSource.readU32 ⟨d, p⟩ = none := by
  unfold ByteSource.readU32
  rw [readExact_none d p 4 h (by omega)]

theorem from_reader_ok (d : List Nat) (p : Nat) (h : p + 16 ≤ d.length) :
    FileMeta.from_reader ⟨d, p⟩ = some (metaAt d p, ⟨d, p + 16⟩) := by
  have e1 := readU32_ok d p (by omega)
  have e2 := readU32_ok d (p + 4) (by omega)
  have e3 := readU32_ok d (p + 4 + 4) (by omega)
  have e4 := readU32_ok d (p + 4 + 4 + 4) (by omega)
  simp only [FileMeta.from_reader, e1, e2, e3, e4, metaAt]

theorem from_reader_none (d : List Nat) (p : Nat) (h : d.length < p + 16) :
    FileMeta.from_reader ⟨d, p⟩ = none := by
  by_cases h4 : p + 4 ≤ d.length
  · by_cases h8 : p + 4 + 4 ≤ d.length
    · by_cases h12 : p + 4 + 4 + 4 ≤ d.length
      · simp only [FileMeta.from_reader, readU32_ok d p h4, readU32_ok d (p + 4) h8,
          readU32_ok d (p + 4 + 4) h12, readU32_none d (p + 4 + 4 + 4) (by omega)]
      · simp only [FileMeta.from_reader, readU32_ok d p h4, readU32_ok d (p + 4) h8,
          readU32_none d (p + 4 + 4) (by omega)]
    · simp only [FileMeta.from_reader, readU32_ok d p h4, readU32_none d (p + 4) (by omega)]
  · simp only [FileMeta.from_reader, readU32_none d p (by omega)]

theorem readMetas_ok (d : List Nat) (n : Nat) :
    ∀ p, p + 16 * n ≤ d.length →
      readMetas ⟨d, p⟩ n = some (metasOf d p n, ⟨d, p + 16 * n⟩) := by
  induction n with
  | zero => intro p _; simp [readMetas, metasOf]
  | succ n ih =>
    intro p h
    simp only [readMetas, from_reader_ok d p (by omega), ih (p + 16) (by omega), metasOf]
    rw [(by omega : p + 16 + 16 * n = p + 16 * (n + 1))]

theorem readMetas_none (d : List Nat) (n : Nat) :
    ∀ p, 0 < n → d.length < p + 16 * n → readMetas ⟨d, p⟩ n = none := by
  induction n with
  | zero => intro p h; omega
  | succ n ih =>
    intro p _ h
    by_cases h16 : p + 16 ≤ d.length
    · cases Nat.eq_zero_or_pos n with
      | inl h0 => subst h0; omega
      | inr hpos =>
        simp only [readMetas, from_reader_ok d p h16, ih (p + 16) hpos (by omega)]
    · simp only [readMetas, from_reader_none d p (by omega)]

theorem readNames_ok (d : List Nat) (fs : Nat) (metas : List FileMeta) :
    ∀ p, (∀ m ∈ metas, utf8Valid (codeName d (fs + m.name_offset)) = true) →
      readNames fs ⟨d, p⟩ metas =
        .ok (entriesOfMetas d fs metas, ⟨d, namesEndPos d fs p metas⟩) := by
  induction metas with
  | nil => intro p _; simp [readNames, entriesOfMetas, namesEndPos]
  | cons m rest ih =>
    intro p hv
    have hm := hv m (by simp)
    have hrest : ∀ m' ∈ rest, utf8Valid (codeName d (fs + m'.name_offset)) = true := by
      intro m' hm'; exact hv m' (by simp [hm'])
    simp only [readNames, ByteSource.seek, ByteSource.readUntilZero, codeName] at hm ⊢
    rw [if_pos hm, ih _ hrest]
    simp [entriesOfMetas, namesEndPos, codeName]

theorem readNames_err (d : List Nat) (fs : Nat) (metas : List FileMeta) :
    ∀ p, ¬ (∀ m ∈ metas, utf8Valid (codeName d (fs + m.name_offset)) = true) →
      readNames fs ⟨d, p⟩ metas = .error .invalidEncoding := by
  induction metas with
  | nil => intro p hv; exact absurd (by simp) hv
  | cons m rest ih =>
    intro p hv
    by_cases hm : utf8Valid (codeName d (fs + m.name_offset)) = true
    · have hrest : ¬ ∀ m' ∈ rest, utf8Valid (codeName d (fs + m'.name_offset)) = true := by
        intro hall; exact hv (by simpa [hm] using hall)
      simp only [readNames, ByteSource.seek, ByteSource.readUntilZero, codeName] at hm ⊢
      rw [if_pos hm, ih _ hrest]
    · simp only [readNames, ByteSource.seek, ByteSource.readUntilZero, codeName] at hm ⊢
      rw [if_neg hm]

theorem parseHeader_ok (d : List Nat) (hm : d.take 4 = MAGIC) (hl : 32 ≤ d.length) :
    parseHeader ⟨d, 0⟩ = .ok (headerCount d, headerTotal d, ⟨d, 32⟩) := by
  have e0 := readExact_ok d 0 4 (by omega)
  have e1 := readExact_ok d 4 16 (by omega)
  have e2 := readU16_ok d (4 + 16) (by omega)
  have e3 := readU16_ok d (4 + 16 + 2) (by omega)
  have e4 := readU32_ok d (4 + 16 + 2 + 2) (by omega)
  have e5 := readU32_ok d (4 + 16 + 2 + 2 + 4) (by omega)
  simp only [Nat.zero_add] at e1 e2 e3 e4 e5
  simp only [parseHeader, e0, e1, e2, e3, e4, e5, List.drop_zero, hm,
    eq_self_iff_true, if_true, headerCount, headerTotal]

theorem parseHeader_badMagic (d : List Nat) (h4 : 4 ≤ d.length) (hm : d.take 4 ≠ MAGIC) :
    parseHeader ⟨d, 0⟩ = .error .unrecognizedFormat := by
  have e0 := readExact_ok d 0 4 (by omega)
  simp only [parseHeader, e0, List.drop_zero, Nat.zero_add]
  rw [if_neg hm]

theorem parseHeader_truncMagic (d : List Nat) (h : d.length < 4) :
    parseHeader ⟨d, 0⟩ = .error .truncatedMagic := by
  simp only [parseHeader, readExact_none d 0 4 (by omega) (by omega)]

theorem parseHeader_truncHeader (d : List Nat) (hm : d.take 4 = MAGIC)
    (h4 : 4 ≤ d.length) (hl : d.length < 32) :
    parseHeader ⟨d, 0⟩ = .error .truncatedHeader := by
  have e0 := readExact_ok d 0 4 (by omega)
  simp only [parseHeader, e0, List.drop_zero, Nat.zero_add, hm, eq_self_iff_true, if_true]
  by_cases h20 : 20 ≤ d.length
  · have e1 := readExact_ok d 4 16 (by omega)
    simp only [e1]
    by_cases h22 : 22 ≤ d.length
    · have e2 := readU16_ok d 20 (by omega)
      simp only [e2]
      by_cases h24 : 24 ≤ d.length
      · have e3 := readU16_ok d 22 (by omega)
        simp only [e3]
        by_cases h28 : 28 ≤ d.length
        · have e4 := readU32_ok d 24 (by omega)
          simp [e4, readU32_none d 28 (by omega)]
        · simp [readU32_none d 24 (by omega)]
      · simp [readU16_none d 22 (by omega)]
    · simp [readU16_none d 20 (by omega)]
  · simp [readExact_none d 4 16 (by omega) (by omega)]

/-! ## Characterization of `Hab.new` -/

theorem hab_new_ok (d : List Nat) (hm : d.take 4 = MAGIC) (hl : 32 ≤ d.length)
    (ht : 32 + 16 * headerCount d ≤ d.length) (hn : NamesOK d) :
    Hab.new ⟨d, 0⟩ = .ok (habOf d, ⟨d, (habOf d).data_start⟩) := by
  simp only [Hab.new, parseHeader_ok d hm hl, readMetas_ok d (headerCount d) 32 ht,
    readNames_ok d (32 + 16 * headerCount d) (metasOf d 32 (headerCount d)) _
      (by simpa [tableEnd] using hn), habOf, tableEnd]

theorem hab_new_truncTable (d : List Nat) (hm : d.take 4 = MAGIC) (hl : 32 ≤ d.length)
    (ht : d.length < 32 + 16 * headerCount d) :
    Hab.new ⟨d, 0⟩ = .error .truncatedTable := by
  simp only [Hab.new, parseHeader_ok d hm hl,
    readMetas_none d (headerCount d) 32 (by omega) ht]

theorem hab_new_invalidEncoding (d : List Nat) (hm : d.take 4 = MAGIC) (hl : 32 ≤ d.length)
    (ht : 32 + 16 * headerCount d ≤ d.length) (hn : ¬ NamesOK d) :
    Hab.new ⟨d, 0⟩ = .error .invalidEncoding := by
  have hn' : ¬ ∀ m ∈ metasOf d 32 (headerCount d),
      utf8Valid (codeName d (32 + 16 * headerCount d + m.name_offset)) = true := by
    intro hall
    exact hn (by unfold NamesOK tableEnd; exact hall)
  simp only [Hab.new, parseHeader_ok d hm hl, readMetas_ok d (headerCount d) 32 ht,
    readNames_err d (32 + 16 * headerCount d) (metasOf d 32 (headerCount d)) _ hn']

theorem hab_new_badMagic (d : List Nat) (h4 : 4 ≤ d.length) (hm : d.take 4 ≠ MAGIC) :
    Hab.new ⟨d, 0⟩ = .error .unrecognizedFormat := by
  simp only [Hab.new, parseHeader_badMagic d h4 hm]

theorem hab_new_truncMagic (d : List Nat) (h : d.length < 4) :
    Hab.new ⟨d, 0⟩ = .error .truncatedMagic := by
  simp only [Hab.new, parseHeader_truncMagic d h]

theorem hab_new_truncHeader (d : List Nat) (hm : d.take 4 = MAGIC)
    (h4 : 4 ≤ d.length) (hl : d.length < 32) :
    Hab.new ⟨d, 0⟩ = .error .truncatedHeader := by
  simp only [Hab.new, parseHeader_truncHeader d hm h4 hl]

/-- Inversion: a successful parse pins down all side conditions and the
result. -/
theorem hab_new_ok_inv (d : List Nat) (hab : Hab) (s' : ByteSource)
    (h : Hab.new ⟨d, 0⟩ = .ok (hab, s')) :
    d.take 4 = MAGIC ∧ 32 ≤ d.length ∧ 32 + 16 * headerCount d ≤ d.length ∧
      NamesOK d ∧ hab = habOf d ∧ s' = ⟨d, (habOf d).data_start⟩ := by
  by_cases h4 : 4 ≤ d.length
  · by_cases hm : d.take 4 = MAGIC
    · by_cases hl : 32 ≤ d.length
      · by_cases ht : 32 + 16 * headerCount d ≤ d.length
        · by_cases hn : NamesOK d
          · have := hab_new_ok d hm hl ht hn
            rw [this] at h
            injection h with h1
            rw [Prod.ext_iff] at h1
            exact ⟨hm, hl, ht, hn, h1.1.symm, h1.2.symm⟩
          · rw [hab_new_invalidEncoding d hm hl ht hn] at h; exact absurd h (by simp)
        · rw [hab_new_truncTable d hm hl (by omega)] at h; exact absurd h (by simp)
      · rw [hab_new_truncHeader d hm h4 (by omega)] at h; exact absurd h (by simp)
    · rw [hab_new_badMagic d h4 hm] at h; exact absurd h (by simp)
  · rw [hab_new_truncMagic d (by omega)] at h; exact absurd h (by simp)

theorem metasOf_length (d : List Nat) (n : Nat) : ∀ p, (metasOf d p n).length = n := by
  induction n with
  | zero => intro p; rfl
  | succ n ih => intro p; simp [metasOf, ih]

theorem entriesOfMetas_length (d : List Nat) (fs : Nat) (metas : List FileMeta) :
    (entriesOfMetas d fs metas).length = metas.length := by
  simp [entriesOfMetas]

theorem entriesOfMetas_get? (d : List Nat) (fs : Nat) (metas : List FileMeta) (i : Nat) :
    (entriesOfMetas d fs metas).get? i =
      (metas.get? i).map fun m => ⟨codeName d (fs + m.name_offset), m⟩ := by
  simp [entriesOfMetas, List.get?_map]

/-! ## Characterization of the bounded reader -/

theorem HabFile.read_fst (f : HabFile) (n : Nat) :
    (f.read n).1 = (f.src.data.drop f.src.pos).take (min n f.limit) := by
  unfold HabFile.read ByteSource.read
  by_cases h : f.limit = 0
  · simp [h]
  · simp [h]

theorem HabFile.read_data (f : HabFile) (n : Nat) :
    (f.read n).2.src.data = f.src.data := by
  unfold HabFile.read ByteSource.read
  by_cases h : f.limit = 0
  · simp [h]
  · simp [h]

theorem HabFile.read_pos (f : HabFile) (n : Nat) :
    (f.read n).2.src.pos = f.src.pos + (f.read n).1.length := by
  unfold HabFile.read ByteSource.read
  by_cases h : f.limit = 0
  · simp [h]
  · simp [h]

theorem HabFile.read_limit (f : HabFile) (n : Nat) :
    (f.read n).2.limit = f.limit - (f.read n).1.length := by
  unfold HabFile.read ByteSource.read
  by_cases h : f.limit = 0
  · simp [h]
  · simp [h]

theorem HabFile.read_entry (f : HabFile) (n : Nat) :
    (f.read n).2.entry = f.entry := by
  unfold HabFile.read ByteSource.read
  by_cases h : f.limit = 0
  · simp [h]
  · simp [h]

theorem HabFile.read_len_le (f : HabFile) (n : Nat) :
    (f.read n).1.length ≤ min n f.limit := by
  rw [HabFile.read_fst]
  simp only [List.length_take, List.length_drop]
  omega

theorem HabFile.read_at_limit_zero (f : HabFile) (n : Nat) (h : f.limit = 0) :
    f.read n = ([], f) := by
  unfold HabFile.read
  rw [if_pos h]

/-- Closed form of the extraction loop: with enough fuel it yields exactly
the available prefix of the payload window and leaves the reader at the
end of the bytes obtained. -/
theorem readToEndAux_spec (c : Nat) (hc : 0 < c) :
    ∀ (fuel : Nat) (f : HabFile), f.limit < fuel →
      (readToEndAux c fuel f).1 = (f.src.data.drop f.src.pos).take f.limit
      ∧ (readToEndAux c fuel f).2.src.data = f.src.data
      ∧ (readToEndAux c fuel f).2.src.pos =
          f.src.pos + ((f.src.data.drop f.src.pos).take f.limit).length
      ∧ (readToEndAux c fuel f).2.limit =
          f.limit - ((f.src.data.drop f.src.pos).take f.limit).length
      ∧ (readToEndAux c fuel f).2.entry = f.entry := by
  intro fuel
  induction fuel with
  | zero => intro f h; omega
  | succ fuel ih =>
    intro f h
    match hr : f.read c with
    | ([], f1) =>
      have h1 : (f.read c).1 = [] := by rw [hr]
      have hf2 : (f.read c).2 = f1 := by rw [hr]
      have h2 : (f.src.data.drop f.src.pos).take f.limit = [] := by
        rw [HabFile.read_fst] at h1
        rcases List.take_eq_nil_iff.mp h1 with h3 | h3
        · have h0 : f.limit = 0 := by omega
          simp [h0]
        · simp [h3]
      have hd : f1.src.data = f.src.data := by rw [← hf2, HabFile.read_data]
      have hp : f1.src.pos = f.src.pos := by
        rw [← hf2, HabFile.read_pos, h1]
        simp
      have hli : f1.limit = f.limit := by
        rw [← hf2, HabFile.read_limit, h1]
        simp
      have he : f1.entry = f.entry := by rw [← hf2, HabFile.read_entry]
      simp [readToEndAux, hr, h2, hd, hp, hli, he]
    | (b :: bs, f1) =>
      have h1 : (f.read c).1 = b :: bs := by rw [hr]
      have hf2 : (f.read c).2 = f1 := by rw [hr]
      have h1len : (f.read c).1.length ≤ min c f.limit := HabFile.read_len_le f c
      have hcons : (b :: bs).length = bs.length + 1 := by simp
      have hlim : (b :: bs).length ≤ f.limit := by rw [h1] at h1len; omega
      have hd : f1.src.data = f.src.data := by rw [← hf2, HabFile.read_data]
      have hp : f1.src.pos = f.src.pos + (b :: bs).length := by
        rw [← hf2, HabFile.read_pos, h1]
      have hli : f1.limit = f.limit - (b :: bs).length := by
        rw [← hf2, HabFile.read_limit, h1]
      have he : f1.entry = f.entry := by rw [← hf2, HabFile.read_entry]
      have hfuel : f1.limit < fuel := by rw [hli]; omega
      obtain ⟨r1, r2, r3, r4, r5⟩ := ih f1 hfuel
      simp only [hd, hp, hli, he] at r1 r2 r3 r4 r5
      -- the first chunk is the corresponding take of the available bytes
      have hb0 : b :: bs = (f.src.data.drop f.src.pos).take (min c f.limit) := by
        rw [← h1, HabFile.read_fst]
      have hblen : (b :: bs).length =
          min (min c f.limit) (f.src.data.drop f.src.pos).length := by
        rw [hb0]
        simp
      have hbytes : b :: bs = (f.src.data.drop f.src.pos).take ((b :: bs).length) := by
        conv_lhs => rw [hb0]
        rw [List.take_eq_take]
        omega
      -- split the full take at the first chunk
      have hsplit : (f.src.data.drop f.src.pos).take f.limit =
          b :: bs ++ (f.src.data.drop (f.src.pos + (b :: bs).length)).take
            (f.limit - (b :: bs).length) := by
        have hdr : (f.src.data.drop f.src.pos).drop ((b :: bs).length) =
            f.src.data.drop (f.src.pos + (b :: bs).length) := by
          rw [List.drop_drop, Nat.add_comm]
        conv_lhs => rw [(by omega : f.limit = (b :: bs).length + (f.limit - (b :: bs).length))]
        rw [List.take_add, ← hbytes, hdr]
      have hK : ((f.src.data.drop f.src.pos).take f.limit).length =
          (b :: bs).length +
            ((f.src.data.drop (f.src.pos + (b :: bs).length)).take
              (f.limit - (b :: bs).length)).length := by
        rw [hsplit, List.length_append]
      rcases hrg : readToEndAux c fuel f1 with ⟨rest, g⟩
      rw [hrg] at r1 r2 r3 r4 r5
      simp only at r1 r2 r3 r4 r5
      refine ⟨?_, ?_, ?_, ?_, ?_⟩
      · simp only [readToEndAux, hr, hrg]
        rw [r1, hsplit]
      · simp only [readToEndAux, hr, hrg]
        exact r2
      · simp only [readToEndAux, hr, hrg, r3, hK]
        omega
      · simp only [readToEndAux, hr, hrg, r4, hK]
        omega
      · simp only [readToEndAux, hr, hrg]
        exact r5

theorem readToEnd_fst (f : HabFile) (c : Nat) (hc : 0 < c) :
    (f.readToEnd c).1 = (f.src.data.drop f.src.pos).take f.limit :=
  (readToEndAux_spec c hc (f.limit + 1) f (by omega)).1

theorem readToEnd_data (f : HabFile) (c : Nat) (hc : 0 < c) :
    (f.readToEnd c).2.src.data = f.src.data :=
  (readToEndAux_spec c hc (f.limit + 1) f (by omega)).2.1

/-- After reading to completion, the stream is exhausted: any further read
yields no bytes (and, the model being total, no error). -/
theorem readToEnd_exhausted (f : HabFile) (c n : Nat) (hc : 0 < c) :
    (((f.readToEnd c).2).read n).1 = [] := by
  obtain ⟨r1, r2, r3, r4, r5⟩ := readToEndAux_spec c hc (f.limit + 1) f (by omega)
  show (((readToEndAux c (f.limit + 1) f).2).read n).1 = []
  rw [HabFile.read_fst, r2, r3, r4]
  have hKval : ((f.src.data.drop f.src.pos).take f.limit).length =
      min f.limit (f.src.data.drop f.src.pos).length := by
    simp
  have hlen : (f.src.data.drop f.src.pos).length = f.src.data.length - f.src.pos := by
    simp
  rcases le_or_lt f.limit (f.src.data.drop f.src.pos).length with hcase | hcase
  · have h0 : f.limit - ((f.src.data.drop f.src.pos).take f.limit).length = 0 := by
      omega
    simp [h0]
    omega
  · have hdrop : f.src.data.drop
        (f.src.pos + ((f.src.data.drop f.src.pos).take f.limit).length) = [] := by
      rw [List.drop_eq_nil_iff]
      omega
    simp [hdrop]
    omega

/-! ## Reader invariant (window discipline of `Take`) -/

theorem read_preserves_inv (a sz : Nat) (f : HabFile) (n : Nat)
    (h : ReaderInv a sz f) : ReaderInv a sz (f.read n).2 := by
  obtain ⟨h1, h2⟩ := h
  have hp := HabFile.read_pos f n
  have hl := HabFile.read_limit f n
  have hle := HabFile.read_len_le f n
  unfold ReaderInv
  rw [hp, hl]
  omega

theorem runReads_inv (a sz : Nat) : ∀ (ns : List Nat) (f : HabFile),
    ReaderInv a sz f → ReaderInv a sz (runReads f ns) := by
  intro ns
  induction ns with
  | nil => intro f h; exact h
  | cons n ns ih => intro f h; exact ih _ (read_preserves_inv a sz f n h)

theorem reachable_inv (a sz : Nat) (f g : HabFile) (h : ReaderInv a sz f)
    (hr : Reachable f g) : ReaderInv a sz g := by
  obtain ⟨ns, hg⟩ := hr
  rw [hg]
  exact runReads_inv a sz ns f h

theorem get_file_by_index_ok (hab : Hab) (s : ByteSource) (i : Nat) (e : FileEntry)
    (he : hab.entries.get? i = some e) :
    hab.get_file_by_index s i =
      .ok ⟨⟨s.data, hab.data_start + e.meta.data_offset⟩, e.meta.data_size, e⟩ := by
  rw [List.get?_eq_getElem?] at he
  simp [Hab.get_file_by_index, he, HabFile.new, ByteSource.seek]

theorem get_file_by_index_err (hab : Hab) (s : ByteSource) (i : Nat)
    (he : hab.entries.get? i = none) :
    hab.get_file_by_index s i = .error .indexOutOfRange := by
  rw [List.get?_eq_getElem?] at he
  simp [Hab.get_file_by_index, he]

/-! ## Name decoding facts -/

theorem takeUntilZero_of_mem_zero :
    ∀ l : List Nat, (0 : Nat) ∈ l →
      takeUntilZero l = l.takeWhile (fun b => b ≠ 0) ++ [0] := by
  intro l
  induction l with
  | nil => intro h; simp at h
  | cons b rest ih =>
    intro h
    by_cases hb : b = 0
    · subst hb
      simp [takeUntilZero]
    · have hrest : (0 : Nat) ∈ rest := by
        rcases List.mem_cons.mp h with h1 | h1
        · exact absurd h1.symm hb
        · exact h1
      simp only [takeUntilZero, if_neg hb]
      rw [ih hrest]
      simp [hb]

theorem codeName_eq_spec (d : List Nat) (off : Nat) (h : (0 : Nat) ∈ d.drop off) :
    codeName d off = (d.drop off).takeWhile (fun b => b ≠ 0) := by
  unfold codeName
  rw [takeUntilZero_of_mem_zero _ h, List.dropLast_concat]

/-! ## Congruence in everything outside bytes 28..31 (for the advisory
total-size field) -/

theorem dropCongr (d1 d2 : List Nat) (h32 : d1.drop 32 = d2.drop 32) (p : Nat)
    (hp : 32 ≤ p) : d1.drop p = d2.drop p := by
  have e1 : d1.drop p = (d1.drop 32).drop (p - 32) := by
    rw [List.drop_drop]
    congr 1
    omega
  have e2 : d2.drop p = (d2.drop 32).drop (p - 32) := by
    rw [List.drop_drop]
    congr 1
    omega
  rw [e1, e2, h32]

theorem metaAt_congr (d1 d2 : List Nat) (h32 : d1.drop 32 = d2.drop 32) (p : Nat)
    (hp : 32 ≤ p) : metaAt d1 p = metaAt d2 p := by
  unfold metaAt
  rw [dropCongr d1 d2 h32 p hp, dropCongr d1 d2 h32 (p + 4) (by omega),
    dropCongr d1 d2 h32 (p + 8) (by omega)]

theorem metasOf_congr (d1 d2 : List Nat) (h32 : d1.drop 32 = d2.drop 32) :
    ∀ n p, 32 ≤ p → metasOf d1 p n = metasOf d2 p n := by
  intro n
  induction n with
  | zero => intro p hp; rfl
  | succ n ih =>
    intro p hp
    unfold metasOf
    rw [metaAt_congr d1 d2 h32 p hp, ih (p + 16) (by omega)]

theorem codeName_congr (d1 d2 : List Nat) (h32 : d1.drop 32 = d2.drop 32) (off : Nat)
    (hoff : 32 ≤ off) : codeName d1 off = codeName d2 off := by
  unfold codeName
  rw [dropCongr d1 d2 h32 off hoff]

theorem entriesOfMetas_congr (d1 d2 : List Nat) (h32 : d1.drop 32 = d2.drop 32)
    (fs : Nat) (hfs : 32 ≤ fs) :
    ∀ metas, entriesOfMetas d1 fs metas = entriesOfMetas d2 fs metas := by
  intro metas
  induction metas with
  | nil => rfl
  | cons m rest ih =>
    unfold entriesOfMetas at ih ⊢
    simp only [List.map_cons, ih]
    rw [codeName_congr d1 d2 h32 (fs + m.name_offset) (by omega)]

theorem namesEndPos_congr (d1 d2 : List Nat) (h32 : d1.drop 32 = d2.drop 32) :
    ∀ metas fs p, 32 ≤ fs →
      namesEndPos d1 fs p metas = namesEndPos d2 fs p metas := by
  intro metas
  induction metas with
  | nil => intro fs p hfs; rfl
  | cons m rest ih =>
    intro fs p hfs
    unfold namesEndPos
    rw [dropCongr d1 d2 h32 (fs + m.name_offset) (by omega), ih fs _ hfs]

theorem take_window_20_2 (d : List Nat) : ((d.take 28).drop 20).take 2 = (d.drop 20).take 2 := by
  rw [List.drop_take, List.take_take]
  norm_num

theorem headerCount_congr (d1 d2 : List Nat) (h28 : d1.take 28 = d2.take 28) :
    headerCount d1 = headerCount d2 := by
  unfold headerCount
  rw [← take_window_20_2 d1, ← take_window_20_2 d2, h28]

theorem namesOK_congr (d1 d2 : List Nat) (h28 : d1.take 28 = d2.take 28)
    (h32 : d1.drop 32 = d2.drop 32) : NamesOK d1 ↔ NamesOK d2 := by
  unfold NamesOK tableEnd
  rw [headerCount_congr d1 d2 h28, metasOf_congr d1 d2 h32 (headerCount d2) 32 (by omega)]
  constructor
  · intro h m hm
    rw [← codeName_congr d1 d2 h32 (32 + 16 * headerCount d2 + m.name_offset) (by omega)]
    exact h m hm
  · intro h m hm
    rw [codeName_congr d1 d2 h32 (32 + 16 * headerCount d2 + m.name_offset) (by omega)]
    exact h m hm

theorem habOf_entries_congr (d1 d2 : List Nat) (h28 : d1.take 28 = d2.take 28)
    (h32 : d1.drop 32 = d2.drop 32) : (habOf d1).entries = (habOf d2).entries := by
  unfold habOf tableEnd
  rw [headerCount_congr d1 d2 h28, metasOf_congr d1 d2 h32 (headerCount d2) 32 (by omega),
    entriesOfMetas_congr d1 d2 h32 (32 + 16 * headerCount d2) (by omega)]

theorem habOf_dataStart_congr (d1 d2 : List Nat) (h28 : d1.take 28 = d2.take 28)
    (h32 : d1.drop 32 = d2.drop 32) : (habOf d1).data_start = (habOf d2).data_start := by
  unfold habOf tableEnd
  rw [headerCount_congr d1 d2 h28, metasOf_congr d1 d2 h32 (headerCount d2) 32 (by omega),
    namesEndPos_congr d1 d2 h32 (metasOf d2 32 (headerCount d2)) (32 + 16 * headerCount d2)
      (32 + 16 * headerCount d2) (by omega)]

theorem namesEndPos_ge (d : List Nat) :
    ∀ metas fs p, 32 ≤ fs → 32 ≤ p → 32 ≤ namesEndPos d fs p metas := by
  intro metas
  induction metas with
  | nil => intro fs p hfs hp; exact hp
  | cons m rest ih =>
    intro fs p hfs hp
    unfold namesEndPos
    exact ih fs _ hfs (by omega)

theorem dataStart_ge (d : List Nat) : 32 ≤ (habOf d).data_start := by
  unfold habOf tableEnd
  exact namesEndPos_ge d _ _ _ (by omega) (by omega)

/-! ## Claim theorems -/

/-- C3: `open_entry(index)` fails with `IndexOutOfRange` if and only if
`index ≥ entry_count()`; for every in-range index, parsing records the
byte-source position reached after consuming all names as the
payload-region base offset (`data_start`), and `open_entry` seeks the byte
source to `data_start + data_offset` and binds `data_size` as the read
limit of the returned reader. -/
theorem claim_C3_theorem (d : List Nat) (hab : Hab) (s' : ByteSource)
    (hparse : Hab.new ⟨d, 0⟩ = .ok (hab, s')) :
    (∀ i s1, (hab.get_file_by_index s1 i = .error .indexOutOfRange ↔ hab.num_entries ≤ i))
    ∧ hab.data_start = s'.pos
    ∧ (∀ i s1 e, hab.entries.get? i = some e →
        hab.get_file_by_index s1 i =
          .ok ⟨⟨s1.data, hab.data_start + e.meta.data_offset⟩, e.meta.data_size, e⟩) := by
  obtain ⟨hm, hl, ht, hn, hhab, hs⟩ := hab_new_ok_inv d hab s' hparse
  refine ⟨?_, ?_, ?_⟩
  · intro i s1
    constructor
    · intro herr
      by_contra hlt
      push_neg at hlt
      have hget : ∃ e, hab.entries.get? i = some e := by
        rcases h : hab.entries.get? i with _ | e
        · rw [List.get?_eq_none] at h
          exact absurd h (by unfold Hab.num_entries at hlt; omega)
        · exact ⟨e, rfl⟩
      obtain ⟨e, he⟩ := hget
      rw [get_file_by_index_ok hab s1 i e he] at herr
      exact absurd herr (by simp)
    · intro hge
      apply get_file_by_index_err
      rw [List.get?_eq_none]
      exact hge
  · rw [hs, hhab]
  · intro i s1 e he
    exact get_file_by_index_ok hab s1 i e he

theorem claim_C3_witness :
    exampleHab.get_file_by_index ⟨exampleData, 54⟩ 1 = .error .indexOutOfRange ↔
      exampleHab.num_entries ≤ 1 :=
  (claim_C3_theorem exampleData exampleHab ⟨exampleData, 54⟩ (by decide)).1 1 ⟨exampleData, 54⟩

/-- C5: for every container that parses successfully, `entry_count()`
equals the 16-bit entry count decoded at header offset 20 (after the magic
and the 16-byte reserved region), and `entry_name i` is defined for every
`i < entry_count()`. -/
theorem claim_C5_theorem (d : List Nat) (hab : Hab) (s' : ByteSource)
    (hparse : Hab.new ⟨d, 0⟩ = .ok (hab, s')) :
    hab.num_entries = leNat ((d.drop 20).take 2)
    ∧ ∀ i, i < hab.num_entries → (hab.entry_name i).isSome := by
  obtain ⟨hm, hl, ht, hn, hhab, hs⟩ := hab_new_ok_inv d hab s' hparse
  subst hhab
  constructor
  · show (habOf d).entries.length = _
    unfold habOf
    rw [entriesOfMetas_length, metasOf_length]
    rfl
  · intro i hi
    unfold Hab.entry_name
    have hlt : i < (habOf d).entries.length := hi
    rw [List.get?_eq_get hlt]
    simp

theorem claim_C5_witness :
    exampleHab.num_entries = leNat ((exampleData.drop 20).take 2) :=
  (claim_C5_theorem exampleData exampleHab ⟨exampleData, 54⟩ (by decide)).1

/-- C6: when the declared entry count promises more 16-byte records than
the source holds (the source ends mid-table), parsing fails with
`TruncatedTable` during the metadata pass; no directory value is produced,
and the name/payload phases are never reached (the error is raised by the
table loop itself). -/
theorem claim_C6_theorem (d : List Nat) (hm : d.take 4 = MAGIC) (hl : 32 ≤ d.length)
    (ht : d.length < 32 + 16 * leNat ((d.drop 20).take 2)) :
    Hab.new ⟨d, 0⟩ = .error .truncatedTable :=
  hab_new_truncTable d hm hl ht

theorem claim_C6_witness : Hab.new ⟨truncTableData, 0⟩ = .error .truncatedTable :=
  claim_C6_theorem truncTableData (by decide) (by decide) (by decide)

/-- C7: whenever the first four bytes differ from the magic signature,
parsing fails with `UnrecognizedFormat`; the result does not depend on any
byte beyond the four magic bytes (the conclusion holds for every `rest`). -/
theorem claim_C7_theorem (b0 b1 b2 b3 : Nat) (rest : List Nat)
    (hm : [b0, b1, b2, b3] ≠ MAGIC) :
    Hab.new ⟨b0 :: b1 :: b2 :: b3 :: rest, 0⟩ = .error .unrecognizedFormat := by
  apply hab_new_badMagic
  · simp
  · simpa using hm

theorem claim_C7_witness : Hab.new ⟨[0, 1, 2, 3, 4, 5], 0⟩ = .error .unrecognizedFormat :=
  claim_C7_theorem 0 1 2 3 [4, 5] (by decide)

/-- C10: a container whose header declares `entry_count = 0` parses
successfully (given the magic and a full 32-byte header), yielding an
empty directory whose payload-region base offset is 32, and every
`open_entry` call fails with the invalid-index error. -/
theorem claim_C10_theorem (d : List Nat) (hm : d.take 4 = MAGIC) (hl : 32 ≤ d.length)
    (hc : leNat ((d.drop 20).take 2) = 0) :
    Hab.new ⟨d, 0⟩ = .ok (⟨[], leNat ((d.drop 28).take 4), 32⟩, ⟨d, 32⟩)
    ∧ ∀ i s1, Hab.get_file_by_index ⟨[], leNat ((d.drop 28).take 4), 32⟩ s1 i =
        .error .indexOutOfRange := by
  have hcount : headerCount d = 0 := hc
  have ht : 32 + 16 * headerCount d ≤ d.length := by rw [hcount]; omega
  have hn : NamesOK d := by
    unfold NamesOK
    rw [hcount]
    intro m hm'
    simp [metasOf] at hm'
  have h1 := hab_new_ok d hm hl ht hn
  have hhab : habOf d = ⟨[], leNat ((d.drop 28).take 4), 32⟩ := by
    unfold habOf tableEnd
    rw [hcount]
    simp [metasOf, entriesOfMetas, namesEndPos, headerTotal]
  constructor
  · rw [h1, hhab]
  · intro i s1
    apply get_file_by_index_err
    simp

theorem claim_C10_witness :
    Hab.new ⟨zeroEntryData, 0⟩ =
      .ok (⟨[], leNat ((zeroEntryData.drop 28).take 4), 32⟩, ⟨zeroEntryData, 32⟩) :=
  (claim_C10_theorem zeroEntryData (by decide) (by decide) (by decide)).1

/-- C2: against the reader returned by `open_entry`, every read call (after
any sequence of prior reads) returns at most `min requested remaining`
bytes; at `remaining = 0` a read returns no bytes and leaves the reader
unchanged (the model is total, so no error is possible); and the bytes of
every read are drawn from positions inside
`[data_start + data_offset, data_start + data_offset + data_size)`. -/
theorem claim_C2_theorem (d : List Nat) (hab : Hab) (s' s1 : ByteSource) (i : Nat)
    (e : FileEntry) (f0 f : HabFile) (n : Nat)
    (hparse : Hab.new ⟨d, 0⟩ = .ok (hab, s'))
    (he : hab.entries.get? i = some e)
    (hopen : hab.get_file_by_index s1 i = .ok f0)
    (hreach : Reachable f0 f) :
    (f.read n).1.length ≤ min n f.limit
    ∧ (f.limit = 0 → f.read n = ([], f))
    ∧ ((f.read n).1 = (f.src.data.drop f.src.pos).take (min n f.limit))
    ∧ hab.data_start + e.meta.data_offset ≤ f.src.pos
    ∧ f.src.pos + (f.read n).1.length ≤
        hab.data_start + e.meta.data_offset + e.meta.data_size := by
  have hf0 : f0 = ⟨⟨s1.data, hab.data_start + e.meta.data_offset⟩, e.meta.data_size, e⟩ := by
    have hgo := get_file_by_index_ok hab s1 i e he
    rw [hgo] at hopen
    exact (Except.ok.inj hopen).symm
  have hinv0 : ReaderInv (hab.data_start + e.meta.data_offset) e.meta.data_size f0 := by
    rw [hf0]
    unfold ReaderInv
    simp
  obtain ⟨hi1, hi2⟩ := reachable_inv _ _ f0 f hinv0 hreach
  have hle := HabFile.read_len_le f n
  refine ⟨hle, fun h0 => HabFile.read_at_limit_zero f n h0, HabFile.read_fst f n, hi1, ?_⟩
  omega

theorem claim_C2_witness :
    (exampleFile.read 5).1.length ≤ min 5 exampleFile.limit :=
  (claim_C2_theorem exampleData exampleHab ⟨exampleData, 54⟩ ⟨exampleData, 54⟩ 0
    exampleEntry exampleFile exampleFile 5 (by decide) (by decide) (by decide)
    ⟨[], rfl⟩).1

/-- C1 (amended): reading the reader returned by `open_entry i` to
completion yields exactly the payload bytes available in the source
window: all `data_size` bytes when the source holds them, and otherwise —
source truncated — exactly the `source_length - absolute_offset` bytes
that exist, after which the stream ends cleanly (the next read yields no
bytes); no error is produced on truncation. -/
theorem claim_C1_theorem (d : List Nat) (hab : Hab) (s' s1 : ByteSource) (i c : Nat)
    (e : FileEntry) (f0 : HabFile)
    (hparse : Hab.new ⟨d, 0⟩ = .ok (hab, s'))
    (he : hab.entries.get? i = some e)
    (hopen : hab.get_file_by_index s1 i = .ok f0)
    (hc : 0 < c) :
    (f0.readToEnd c).1 =
      (s1.data.drop (hab.data_start + e.meta.data_offset)).take e.meta.data_size
    ∧ (f0.readToEnd c).1.length =
        min e.meta.data_size (s1.data.length - (hab.data_start + e.meta.data_offset))
    ∧ ((f0.readToEnd c).2.read c).1 = [] := by
  have hf0 : f0 = ⟨⟨s1.data, hab.data_start + e.meta.data_offset⟩, e.meta.data_size, e⟩ := by
    have hgo := get_file_by_index_ok hab s1 i e he
    rw [hgo] at hopen
    exact (Except.ok.inj hopen).symm
  subst hf0
  refine ⟨?_, ?_, ?_⟩
  · rw [readToEnd_fst _ c hc]
  · rw [readToEnd_fst _ c hc]
    simp
  · exact readToEnd_exhausted _ c c hc

theorem claim_C1_witness :
    (exampleFile.readToEnd 1).1 =
      (exampleData.drop (exampleHab.data_start + exampleEntry.meta.data_offset)).take
        exampleEntry.meta.data_size
    ∧ (exampleFile.readToEnd 1).1.length =
        min exampleEntry.meta.data_size
          (exampleData.length - (exampleHab.data_start + exampleEntry.meta.data_offset))
    ∧ ((exampleFile.readToEnd 1).2.read 1).1 = [] :=
  claim_C1_theorem exampleData exampleHab ⟨exampleData, 54⟩ ⟨exampleData, 54⟩ 0 1
    exampleEntry exampleFile (by decide) (by decide) (by decide) (by decide)

/-- C1 counterexample: `truncData` declares `data_size = 3` but holds only
two payload bytes; extraction ends successfully with the short read
`[1, 2]` and a clean end-of-stream — it does not fail (the tool has no
`TruncatedPayload` error at all). -/
theorem claim_C1_counterexample :
    extractBytes truncData 0 1 = some [1, 2]
    ∧ declaredSize truncData 0 = some 3
    ∧ extractFinalRead truncData 0 1 = some []
    ∧ (2 : Nat) ≠ 3 := by
  decide

/-- C8: after extracting entry `i` to completion, re-opening the same
index on the same (now repositioned) byte source and extracting again
yields byte-identical output, for any chunk sizes. -/
theorem claim_C8_theorem (d : List Nat) (hab : Hab) (s' s1 : ByteSource) (i c1 c2 : Nat)
    (e : FileEntry) (f0 : HabFile)
    (hparse : Hab.new ⟨d, 0⟩ = .ok (hab, s'))
    (he : hab.entries.get? i = some e)
    (hopen : hab.get_file_by_index s1 i = .ok f0)
    (hc1 : 0 < c1) (hc2 : 0 < c2) :
    ∃ f1, hab.get_file_by_index ((f0.readToEnd c1).2.src) i = .ok f1
      ∧ (f1.readToEnd c2).1 = (f0.readToEnd c1).1 := by
  have hf0 : f0 = ⟨⟨s1.data, hab.data_start + e.meta.data_offset⟩, e.meta.data_size, e⟩ := by
    have hgo := get_file_by_index_ok hab s1 i e he
    rw [hgo] at hopen
    exact (Except.ok.inj hopen).symm
  subst hf0
  have hdata := readToEnd_data
    ⟨⟨s1.data, hab.data_start + e.meta.data_offset⟩, e.meta.data_size, e⟩ c1 hc1
  refine ⟨_, get_file_by_index_ok hab _ i e he, ?_⟩
  rw [readToEnd_fst _ c2 hc2, readToEnd_fst _ c1 hc1]
  simp only [hdata]

theorem claim_C8_witness :
    ∃ f1, exampleHab.get_file_by_index ((exampleFile.readToEnd 1).2.src) 0 = .ok f1
      ∧ (f1.readToEnd 2).1 = (exampleFile.readToEnd 1).1 :=
  claim_C8_theorem exampleData exampleHab ⟨exampleData, 54⟩ ⟨exampleData, 54⟩ 0 1 2
    exampleEntry exampleFile (by decide) (by decide) (by decide) (by decide) (by decide)

/-- C4 (amended): for every successfully parsed container and every entry,
the decoded name is the byte run `read_until 0` collects from
`name_table_base + name_offset` with its final byte popped: when a `0x00`
terminator occurs before end-of-source this is exactly the bytes up to and
excluding the terminator (agreeing with the spec), but when no terminator
occurs the code pops the last real byte, so the name is the bytes to
end-of-source with the final byte removed; the name bytes are valid UTF-8
(parsing fails with `InvalidEncoding` otherwise, final conjunct). -/
theorem claim_C4_theorem (d : List Nat) (hab : Hab) (s' : ByteSource) (i : Nat)
    (e : FileEntry)
    (hparse : Hab.new ⟨d, 0⟩ = .ok (hab, s'))
    (he : hab.entries.get? i = some e) :
    e.name = codeName d (32 + 16 * hab.num_entries + e.meta.name_offset)
    ∧ utf8Valid e.name = true
    ∧ ((0 : Nat) ∈ d.drop (32 + 16 * hab.num_entries + e.meta.name_offset) →
        e.name = specNameAt d (32 + 16 * hab.num_entries + e.meta.name_offset))
    ∧ (∀ d2 : List Nat, d2.take 4 = MAGIC → 32 ≤ d2.length →
        32 + 16 * headerCount d2 ≤ d2.length → ¬ NamesOK d2 →
        Hab.new ⟨d2, 0⟩ = .error .invalidEncoding) := by
  obtain ⟨hm, hl, ht, hn, hhab, hs⟩ := hab_new_ok_inv d hab s' hparse
  subst hhab
  have hne : (habOf d).num_entries = headerCount d := by
    show (habOf d).entries.length = _
    unfold habOf
    rw [entriesOfMetas_length, metasOf_length]
  have he' : (entriesOfMetas d (tableEnd d) (metasOf d 32 (headerCount d))).get? i
      = some e := he
  rw [entriesOfMetas_get?] at he'
  rcases hmi : (metasOf d 32 (headerCount d)).get? i with _ | m
  · rw [hmi] at he'
    exact absurd he' (by simp)
  · rw [hmi] at he'
    have hee : (⟨codeName d (tableEnd d + m.name_offset), m⟩ : FileEntry) = e :=
      Option.some.inj (by simpa using he')
    subst hee
    refine ⟨?_, ?_, ?_, ?_⟩
    · rw [hne]
      rfl
    · exact hn m (List.get?_mem hmi)
    · intro h0
      rw [hne] at h0 ⊢
      show codeName d (32 + 16 * headerCount d + m.name_offset) = _
      unfold specNameAt
      exact codeName_eq_spec d _ h0
    · intro d2 hm2 hl2 ht2 hn2
      exact hab_new_invalidEncoding d2 hm2 hl2 ht2 hn2

theorem claim_C4_witness :
    exampleEntry.name =
      codeName exampleData (32 + 16 * exampleHab.num_entries + exampleEntry.meta.name_offset) :=
  (claim_C4_theorem exampleData exampleHab ⟨exampleData, 54⟩ 0 exampleEntry
    (by decide) (by decide)).1

/-- C4 counterexample: in `unterminatedNameData` the single name is the
bytes `97 98` running to end-of-source with no terminator; the claim says
the name is then the bytes up to end-of-source (`[97, 98]`), but the code
pops the final byte and decodes `[97]`. -/
theorem claim_C4_counterexample :
    parsedNames unterminatedNameData = some [[97]]
    ∧ specNameAt unterminatedNameData 48 = [97, 98]
    ∧ ([97] : List Nat) ≠ [97, 98] := by
  decide

/-- C9: two containers identical outside the advisory 32-bit total-size
field at header offset 28 (same length, same bytes below 28 and from 32
on) parse to the same outcome; on success the directories carry the same
entries and payload-region base, entry opening succeeds for the same
indices, and extraction of any common index yields identical bytes. -/
theorem claim_C9_theorem (d1 d2 : List Nat) (hlen : d1.length = d2.length)
    (h28 : d1.take 28 = d2.take 28) (h32 : d1.drop 32 = d2.drop 32) :
    ((∃ x, Hab.new ⟨d1, 0⟩ = .ok x) ↔ (∃ y, Hab.new ⟨d2, 0⟩ = .ok y))
    ∧ (∀ h1 s1 h2 s2, Hab.new ⟨d1, 0⟩ = .ok (h1, s1) → Hab.new ⟨d2, 0⟩ = .ok (h2, s2) →
        h1.entries = h2.entries ∧ h1.data_start = h2.data_start
        ∧ (∀ i c, 0 < c →
            ((∃ f, h1.get_file_by_index s1 i = .ok f) ↔
              (∃ f, h2.get_file_by_index s2 i = .ok f))
            ∧ ∀ f1 f2, h1.get_file_by_index s1 i = .ok f1 →
                h2.get_file_by_index s2 i = .ok f2 →
                (f1.readToEnd c).1 = (f2.readToEnd c).1)) := by
  have h4 : d1.take 4 = d2.take 4 := by
    calc d1.take 4 = (d1.take 28).take 4 := by rw [List.take_take]; norm_num
    _ = (d2.take 28).take 4 := by rw [h28]
    _ = d2.take 4 := by rw [List.take_take]; norm_num
  have hcc := headerCount_congr d1 d2 h28
  constructor
  · constructor
    · rintro ⟨⟨ha, sa⟩, hx⟩
      obtain ⟨hm, hl, ht, hn, _, _⟩ := hab_new_ok_inv d1 ha sa hx
      refine ⟨_, hab_new_ok d2 ?_ ?_ ?_ ?_⟩
      · rw [← h4]; exact hm
      · omega
      · omega
      · exact (namesOK_congr d1 d2 h28 h32).mp hn
    · rintro ⟨⟨ha, sa⟩, hx⟩
      obtain ⟨hm, hl, ht, hn, _, _⟩ := hab_new_ok_inv d2 ha sa hx
      refine ⟨_, hab_new_ok d1 ?_ ?_ ?_ ?_⟩
      · rw [h4]; exact hm
      · omega
      · omega
      · exact (namesOK_congr d1 d2 h28 h32).mpr hn
  · intro h1 s1 h2 s2 hx1 hx2
    obtain ⟨hm1, hl1, ht1, hn1, hh1, hss1⟩ := hab_new_ok_inv d1 h1 s1 hx1
    obtain ⟨hm2, hl2, ht2, hn2, hh2, hss2⟩ := hab_new_ok_inv d2 h2 s2 hx2
    subst hh1
    subst hh2
    subst hss1
    subst hss2
    have hent := habOf_entries_congr d1 d2 h28 h32
    have hds := habOf_dataStart_congr d1 d2 h28 h32
    refine ⟨hent, hds, ?_⟩
    intro i c hc
    constructor
    · constructor
      · rintro ⟨f, hf⟩
        rcases hgi : (habOf d2).entries.get? i with _ | e
        · rw [get_file_by_index_err _ _ i (by rw [hent, hgi])] at hf
          exact absurd hf (by simp)
        · exact ⟨_, get_file_by_index_ok _ _ i e hgi⟩
      · rintro ⟨f, hf⟩
        rcases hgi : (habOf d1).entries.get? i with _ | e
        · rw [hent] at hgi
          rw [get_file_by_index_err _ _ i hgi] at hf
          exact absurd hf (by simp)
        · exact ⟨_, get_file_by_index_ok _ _ i e hgi⟩
    · intro f1 f2 hf1 hf2
      rcases hgi : (habOf d1).entries.get? i with _ | e
      · rw [get_file_by_index_err _ _ i hgi] at hf1
        exact absurd hf1 (by simp)
      · have hgi2 : (habOf d2).entries.get? i = some e := by rw [← hent]; exact hgi
        rw [get_file_by_index_ok _ _ i e hgi] at hf1
        rw [get_file_by_index_ok _ _ i e hgi2] at hf2
        have hf1e := (Except.ok.inj hf1).symm
        have hf2e := (Except.ok.inj hf2).symm
        subst hf1e
        subst hf2e
        rw [readToEnd_fst _ c hc, readToEnd_fst _ c hc]
        show (d1.drop ((habOf d1).data_start + e.meta.data_offset)).take e.meta.data_size =
          (d2.drop ((habOf d2).data_start + e.meta.data_offset)).take e.meta.data_size
        rw [hds]
        rw [dropCongr d1 d2 h32 ((habOf d2).data_start + e.meta.data_offset)
          (by have := dataStart_ge d2; omega)]

theorem claim_C9_witness :
    (∃ x, Hab.new ⟨exampleData, 0⟩ = .ok x) ↔ (∃ y, Hab.new ⟨exampleData2, 0⟩ = .ok y) :=
  (claim_C9_theorem exampleData exampleData2 (by decide) (by decide) (by decide)).1
